import Mathlib

/-!
Verification of the adversarial-search game players (my_custom_player.py):
a depth-limited minimax player with alpha-beta pruning and iterative
deepening, and a Monte Carlo tree search player with a UCB1 selection
policy, both over an abstract immutable game-state interface.

The abstract game state (the external rules engine) is modeled as a finite
game tree `GTree`; an action is the index of a child, `actions()` is the
canonical enumeration `List.range` of those indices, and `result` follows
an edge.  Python float values (score heuristic, utilities, and the
plus/minus infinity sentinels of the search) are modeled as integers
extended with a bottom and a top element.  Randomness (`random.choice`) is
modeled by an explicit stream of natural numbers choosing indices, and the
wall-clock budget of the Monte Carlo loop by an explicit list of
per-iteration random streams.
-/

/-- Value domain of the searches: the Python floats used by the code are
integers (score differences, utilities) together with `float("-inf")` and
`float("inf")`, modeled as `⊥` and `⊤`. -/
abbrev Value : Type := WithBot (WithTop ℤ)

/-- Embed an integer into the value domain. -/
def iv (n : ℤ) : Value := ((n : WithTop ℤ) : Value)

mutual
/-- Abstract game state (rules-engine interface of §3/§6): `terminal` is
`terminal_test()`, `util` is `utility(self.player_id)`, `score` is the
mobility heuristic `len(own_liberties) - len(opp_liberties)` of the
player's `score` method, `player` is `player()`, `lib0`/`lib1` record
`_has_liberties` for players 0 and 1, `ply` is `ply_count`, and `children`
are the successor states, indexed by the action that reaches them. -/
inductive GTree : Type where
  | node (terminal : Bool) (util : ℤ) (score : ℤ) (player : ℕ)
      (lib0 : Bool) (lib1 : Bool) (ply : ℕ) (children : GTreeL) : GTree

/-- Lists of game states (children of a `GTree` node). -/
inductive GTreeL : Type where
  | nil : GTreeL
  | cons (hd : GTree) (tl : GTreeL) : GTreeL
end

def GTree.terminal : GTree → Bool
  | .node b _ _ _ _ _ _ _ => b

def GTree.util : GTree → ℤ
  | .node _ u _ _ _ _ _ _ => u

def GTree.score : GTree → ℤ
  | .node _ _ s _ _ _ _ _ => s

def GTree.player : GTree → ℕ
  | .node _ _ _ p _ _ _ _ => p

def GTree.lib0 : GTree → Bool
  | .node _ _ _ _ l0 _ _ _ => l0

def GTree.lib1 : GTree → Bool
  | .node _ _ _ _ _ l1 _ _ => l1

def GTree.ply : GTree → ℕ
  | .node _ _ _ _ _ _ q _ => q

def GTree.children : GTree → GTreeL
  | .node _ _ _ _ _ _ _ cs => cs

def GTreeL.length : GTreeL → ℕ
  | .nil => 0
  | .cons _ tl => tl.length + 1

def GTreeL.get? : GTreeL → ℕ → Option GTree
  | .nil, _ => none
  | .cons hd _, 0 => some hd
  | .cons _ tl, n + 1 => tl.get? n

/-- `state.actions()`: the canonical enumeration of legal actions, one per
child, in a stable order (§6). -/
def GTree.actions (t : GTree) : List ℕ := List.range t.children.length

/-- `state.result(action)`: follow the edge of the chosen action (the
default value is irrelevant: the code only applies legal actions). -/
def GTree.result (t : GTree) (a : ℕ) : GTree := (t.children.get? a).getD t

/-- `state._has_liberties(player_id)` of the external rules engine,
modeled by the two stored booleans. -/
def GTree.hasLiberties (t : GTree) (p : ℕ) : Bool :=
  if p = 0 then t.lib0 else t.lib1

/-- Python's `max(xs, key=f)`: the first element attaining the largest
key; a later element replaces the current best only when its key is
strictly greater.  Returns `none` on an empty list (Python raises). -/
def pyMax {α β : Type} [LinearOrder β] (f : α → β) : List α → Option α
  | [] => none
  | x :: xs => some (xs.foldl (fun b y => if f b < f y then y else b) x)

/-- `random.choice(l)` driven by one random draw `r`: a uniformly random
index into `l`.  Returns `none` on an empty list (Python raises). -/
def randChoice (r : ℕ) (l : List ℕ) : Option ℕ := l[r % l.length]?

mutual
/-- `min_value(state, alpha, beta, depth)` of
`MinimaxAlphaBetaPlayer.minimax_alpha_beta`. -/
def minValue : GTree → Value → Value → ℤ → Value
  | .node term u sc _ _ _ _ cs, alpha, beta, depth =>
    if term = true then iv u
    else if depth ≤ 0 then iv sc
    else minLoop cs alpha beta depth ⊤

/-- The `for action in state.actions()` loop of `min_value`, carrying the
running `value` (initially `float("inf")`); returns early as soon as
`value <= alpha`, otherwise tightens `beta` downward. -/
def minLoop : GTreeL → Value → Value → ℤ → Value → Value
  | .nil, _, _, _, value => value
  | .cons c rest, alpha, beta, depth, value =>
    let v := min value (maxValue c alpha beta (depth - 1))
    if v ≤ alpha then v else minLoop rest alpha (min beta v) depth v

/-- `max_value(state, alpha, beta, depth)` of
`MinimaxAlphaBetaPlayer.minimax_alpha_beta`. -/
def maxValue : GTree → Value → Value → ℤ → Value
  | .node term u sc _ _ _ _ cs, alpha, beta, depth =>
    if term = true then iv u
    else if depth ≤ 0 then iv sc
    else maxLoop cs alpha beta depth ⊥

/-- The `for action in state.actions()` loop of `max_value`, carrying the
running `value` (initially `float("-inf")`); returns early as soon as
`value >= beta`, otherwise tightens `alpha` upward. -/
def maxLoop : GTreeL → Value → Value → ℤ → Value → Value
  | .nil, _, _, _, value => value
  | .cons c rest, alpha, beta, depth, value =>
    let v := max value (minValue c alpha beta (depth - 1))
    if beta ≤ v then v else maxLoop rest (max alpha v) beta depth v
end

/-- `minimax_alpha_beta(state, depth)`: the root selection
`max(state.actions(), key=lambda x: min_value(state.result(x), -inf, inf,
depth - 1))`. -/
def minimax_alpha_beta (t : GTree) (depth : ℤ) : Option ℕ :=
  pyMax (fun a => minValue (t.result a) ⊥ ⊤ (depth - 1)) t.actions

mutual
/-- Modelled from the spec: the unpruned depth-limited minimax value of a
min node over the same tree and the same score heuristic (§4.1, §8), the
reference against which the pruned search is compared. -/
def mmMin : GTree → ℤ → Value
  | .node term u sc _ _ _ _ cs, depth =>
    if term = true then iv u
    else if depth ≤ 0 then iv sc
    else mmMinL cs depth

/-- Modelled from the spec: minimum of the unpruned values of a list of
max children (`⊤` for the empty list, matching the `float("inf")` start of
the pruned loop). -/
def mmMinL : GTreeL → ℤ → Value
  | .nil, _ => ⊤
  | .cons c rest, depth => min (mmMax c (depth - 1)) (mmMinL rest depth)

/-- Modelled from the spec: the unpruned depth-limited minimax value of a
max node. -/
def mmMax : GTree → ℤ → Value
  | .node term u sc _ _ _ _ cs, depth =>
    if term = true then iv u
    else if depth ≤ 0 then iv sc
    else mmMaxL cs depth

/-- Modelled from the spec: maximum of the unpruned values of a list of
min children (`⊥` for the empty list). -/
def mmMaxL : GTreeL → ℤ → Value
  | .nil, _ => ⊥
  | .cons c rest, depth => max (mmMin c (depth - 1)) (mmMaxL rest depth)
end

/-- Modelled from the spec: the root selection of the unpruned reference
minimax, with the same first-occurrence tie-breaking as the pruned
search. -/
def minimax_unpruned (t : GTree) (depth : ℤ) : Option ℕ :=
  pyMax (fun a => mmMin (t.result a) (depth - 1)) t.actions

/-- `MinimaxAlphaBetaPlayer.get_action`, as the list of values pushed to
the Decision Sink (`self.queue.put(...)`), in order: a single random move
for the first two plies, otherwise one iterative-deepening result per
depth from 1 to the fixed ceiling 5. -/
def mm_get_action (r : ℕ) (t : GTree) : List (Option ℕ) :=
  if t.ply < 2 then [randChoice r t.actions]
  else (List.range 5).map fun i => minimax_alpha_beta t ((i : ℤ) + 1)


/-! ### The Monte Carlo UCT player -/

/-- A node of the Monte Carlo search tree (class `Node`): visit count
(initialized to 1), accumulated value (a float, initialized to 0.0), the
state snapshot, the owned child nodes, and the list of attempted actions
(`child_actions`, aligned with `children`).  The parent back-reference of
the Python class exists only for upward traversal; in this functional
encoding, operations that walk parent links take the access path from the
root instead. -/
inductive MCTree : Type where
  | mk (visits : ℤ) (value : ℝ) (state : GTree) (children : List MCTree)
      (child_actions : List ℕ) : MCTree

def MCTree.visits : MCTree → ℤ
  | .mk vi _ _ _ _ => vi

def MCTree.value : MCTree → ℝ
  | .mk _ va _ _ _ => va

def MCTree.state : MCTree → GTree
  | .mk _ _ st _ _ => st

def MCTree.children : MCTree → List MCTree
  | .mk _ _ _ cs _ => cs

def MCTree.child_actions : MCTree → List ℕ
  | .mk _ _ _ _ ca => ca

/-- `Node.__init__(state, parent)`. -/
def mkNode (s : GTree) : MCTree := .mk 1 0 s [] []

/-- `Node.add_child(child_state, action)`: append a fresh child node and
record its action. -/
def MCTree.add_child (n : MCTree) (child_state : GTree) (action : ℕ) : MCTree :=
  .mk n.visits n.value n.state (n.children ++ [mkNode child_state])
    (n.child_actions ++ [action])

/-- `Node.update(value)`: accumulate the reward and count the visit. -/
def MCTree.update (n : MCTree) (v : ℝ) : MCTree :=
  .mk (n.visits + 1) (n.value + v) n.state n.children n.child_actions

/-- `Node.fully_explored()`: every legal action has been attempted. -/
def MCTree.fully_explored (n : MCTree) : Bool :=
  n.child_actions.length == n.state.actions.length

/-- Replace the element at an index of a list (identity out of range);
used to put a recursively updated child back into `children`. -/
def setChildAt : List MCTree → ℕ → MCTree → List MCTree
  | [], _, _ => []
  | _ :: xs, 0, c => c :: xs
  | x :: xs, i + 1, c => x :: setChildAt xs i c

def MCTree.setChild (n : MCTree) (i : ℕ) (c : MCTree) : MCTree :=
  .mk n.visits n.value n.state (setChildAt n.children i c) n.child_actions

/-- The node reached from `n` by successively entering the child at each
index of the path. -/
def getNodeAt : MCTree → List ℕ → Option MCTree
  | n, [] => some n
  | n, i :: p =>
    match n.children[i]? with
    | none => none
    | some c => getNodeAt c p

/-- The `for action in possible_actions: if action not in
child_action_attempts: break` search of `expand`: the first action, in the
state's enumeration order, not yet attempted from this node. -/
def firstUntried (n : MCTree) : Option ℕ :=
  n.state.actions.find? fun a => ! n.child_actions.contains a

/-- `expand(node)`: attach a new child for the first untried action and
return `node.children[-1]`, modeled as the updated node together with the
index of the appended child.  `none` when the node is fully explored (the
code only calls `expand` on not-fully-explored nodes; there the Python
loop would fall through with stale locals). -/
def expand (n : MCTree) : Option (MCTree × ℕ) :=
  (firstUntried n).map fun a =>
    (n.add_child (n.state.result a) a, n.children.length)

/-- `exploit(node) = node.value / node.visits`. -/
noncomputable def exploit (n : MCTree) : ℝ := n.value / (n.visits : ℝ)

/-- `explore(node) = sqrt(2.0 * log(node.parent.visits) / node.visits)`;
the parent is passed explicitly (`p` is `node.parent` at every call
site). -/
noncomputable def explore (p n : MCTree) : ℝ :=
  Real.sqrt (2 * Real.log (p.visits : ℝ) / (n.visits : ℝ))

/-- `best_child(node, factor)`: Python max with the UCB1 key over the
children. -/
noncomputable def best_child (n : MCTree) (factor : ℝ) : Option MCTree :=
  pyMax (fun child => exploit child + factor * explore n child) n.children

/-- Position of the first element attaining the largest key.
`root.children.index(best_child(root, c))` compares by object identity in
Python and therefore yields exactly the position at which `max` picked its
result; the composite is modeled directly as this first-argmax index. -/
def pyMaxIdx {α β : Type} [LinearOrder β] (f : α → β) (l : List α) : Option ℕ :=
  (pyMax (fun p => f p.2) l.enum).map Prod.fst

/-- `tree_policy(node)`: while the state is non-terminal, expand the first
not-fully-explored node, otherwise descend into the best child (factor
1.0).  Returns the updated tree and the path to the returned node (the
expanded child, or the terminal node reached); `none` models the exception
raised by `max` when a fully-explored node has no children. -/
noncomputable def tree_policy (n : MCTree) : Option (MCTree × List ℕ) :=
  if n.state.terminal = true then some (n, [])
  else if n.fully_explored = true then
    match pyMaxIdx (fun child => exploit child + 1 * explore n child) n.children with
    | none => none
    | some i =>
      match hgc : n.children[i]? with
      | none => none
      | some c =>
        match tree_policy c with
        | none => none
        | some (c2, p) => some (n.setChild i c2, i :: p)
  else
    (expand n).map fun pr => (pr.1, [pr.2])
termination_by sizeOf n
decreasing_by
  have h1 : c ∈ n.children := by
    have := hgc
    exact List.getElem?_mem this
  have h2 := List.sizeOf_lt_of_mem h1
  cases n with
  | mk vi va st cs ca =>
    simp only [MCTree.children] at h2
    simp only [MCTree.mk.sizeOf_spec]
    omega

/-- The `while not state.terminal_test()` playout loop of
`rollout_policy`, driven by the stream `rs` of random draws; `none` models
exhausting the stream or `random.choice` on an empty action list. -/
def rolloutLoop (rs : List ℕ) (t : GTree) : Option GTree :=
  if t.terminal = true then some t
  else
    match rs with
    | [] => none
    | r :: rest =>
      match randChoice r t.actions with
      | none => none
      | some a => rolloutLoop rest (t.result a)

/-- `rollout_policy(node, player)`: play uniformly random legal actions
from the node's state to a terminal state; return -1 when
`state._has_liberties(node.state.player())` holds there and +1 otherwise.
The `player` argument is unused, exactly as in the source. -/
def rollout_policy (rs : List ℕ) (node : MCTree) (_player : ℕ) : Option ℤ :=
  (rolloutLoop rs node.state).map fun ts =>
    if ts.hasLiberties node.state.player = true then -1 else 1

/-- `backprop(node, value)`: walk from the expanded node up to the root,
at each node accumulating the value and counting the visit, and flipping
the sign at every step.  In the functional encoding the walk along parent
references becomes a walk down the access path: the node at distance `d`
above the leaf receives `(-1) ^ d * value`. -/
def backprop (n : MCTree) (path : List ℕ) (v : ℝ) : MCTree :=
  match path with
  | [] => n.update v
  | i :: p =>
    match n.children[i]? with
    | none => n.update ((-1 : ℝ) ^ (p.length + 1) * v)
    | some c => (n.update ((-1 : ℝ) ^ (p.length + 1) * v)).setChild i (backprop c p v)

/-- One cycle of the `while time.time() < timer_end` loop of
`monte_carlo_uct`: selection/expansion, rollout from the returned leaf,
backpropagation. -/
noncomputable def mctsRound (rs : List ℕ) (rootPlayer : ℕ) (n : MCTree) : Option MCTree :=
  match tree_policy n with
  | none => none
  | some (n2, path) =>
    match getNodeAt n2 path with
    | none => none
    | some leaf =>
      match rollout_policy rs leaf rootPlayer with
      | none => none
      | some v => some (backprop n2 path (v : ℝ))

/-- The whole timed loop; the wall-clock budget is modeled by the length
of `rounds`, one random stream per executed iteration. -/
noncomputable def mctsLoop (rounds : List (List ℕ)) (rootPlayer : ℕ) (n : MCTree) :
    Option MCTree :=
  match rounds with
  | [] => some n
  | rs :: rest =>
    match mctsRound rs rootPlayer n with
    | none => none
    | some n2 => mctsLoop rest rootPlayer n2

/-- `monte_carlo_uct(state)`: a random legal action if the root state is
already terminal, otherwise run the loop from a fresh root node and return
`root.child_actions[root.children.index(self.best_child(root, 0))]`. -/
noncomputable def monte_carlo_uct (rounds : List (List ℕ)) (r0 : ℕ) (t : GTree) :
    Option ℕ :=
  if t.terminal = true then randChoice r0 t.actions
  else
    match mctsLoop rounds t.player (mkNode t) with
    | none => none
    | some root =>
      match pyMaxIdx (fun child => exploit child + 0 * explore root child) root.children with
      | none => none
      | some i => root.child_actions[i]?

/-- `MonteCarloUCTPlayer.get_action` as the list of values pushed to the
Decision Sink: a single random move for the first two plies, otherwise the
single Monte Carlo result. -/
noncomputable def mc_get_action (r : ℕ) (rounds : List (List ℕ)) (r0 : ℕ) (t : GTree) :
    List (Option ℕ) :=
  if t.ply < 2 then [randChoice r t.actions]
  else [monte_carlo_uct rounds r0 t]

/-! ### Concrete states used by witnesses and counterexamples -/

/-- A terminal state in which player 0 (to move) still has liberties. -/
def sWin : GTree := .node true 1 0 0 true false 4 .nil

/-- A terminal state in which player 0 has no liberties. -/
def sLoss : GTree := .node true (-1) 0 1 false true 4 .nil

/-- A non-terminal interior state with one winning and one losing child. -/
def sInner : GTree := .node false 0 2 1 true true 3 (.cons sWin (.cons sLoss .nil))

/-- A non-terminal root at ply 2 with two children. -/
def sRoot : GTree := .node false 0 1 0 true true 2 (.cons sInner (.cons sWin .nil))

/-- A non-terminal state in the opening (ply 0). -/
def sOpen : GTree := .node false 0 0 0 true true 0 (.cons sWin (.cons sLoss .nil))

/-- A search-tree leaf node over the winning state. -/
def wLeaf : MCTree := .mk 1 0 sWin [] []

/-- A search-tree root node with one child and one attempted action. -/
def wRoot : MCTree := .mk 1 0 sInner [wLeaf] [0]

/-- A fresh, unexpanded search node over the interior state. -/
def wFresh : MCTree := .mk 1 0 sInner [] []

/-! ### Correctness of alpha-beta pruning (C1)

`Tri m alpha beta r` is the classic fail-soft window property of an
alpha-beta result `r` against the true minimax value `m`: exact inside the
window, an upper bound on `m` when failing low, a lower bound when failing
high. -/

abbrev Tri (m alpha beta r : Value) : Prop :=
  (r ≤ alpha → m ≤ r) ∧ (alpha < r → r < beta → r = m) ∧ (beta ≤ r → r ≤ m)

theorem tri_of_eq {m alpha beta r : Value} (h : r = m) : Tri m alpha beta r :=
  ⟨fun _ => h.ge, fun _ _ => h, fun _ => h.le⟩

mutual

theorem minValue_tri (t : GTree) (alpha beta : Value) (d : ℤ) (hab : alpha < beta) :
    Tri (mmMin t d) alpha beta (minValue t alpha beta d) := by
  match t with
  | .node term u sc pl l0 l1 py cs =>
    simp only [minValue, mmMin]
    by_cases ht : term = true
    · rw [if_pos ht, if_pos ht]
      exact tri_of_eq rfl
    · rw [if_neg ht, if_neg ht]
      by_cases hd : d ≤ 0
      · rw [if_pos hd, if_pos hd]
        exact tri_of_eq rfl
      · rw [if_neg hd, if_neg hd]
        have h := minLoop_tri cs alpha beta d ⊤ hab le_top
        rwa [min_eq_right le_top] at h

theorem minLoop_tri (cs : GTreeL) (alpha beta : Value) (d : ℤ) (v : Value)
    (hab : alpha < beta) (hbv : beta ≤ v) :
    Tri (min v (mmMinL cs d)) alpha beta (minLoop cs alpha beta d v) := by
  match cs with
  | .nil =>
    simp only [minLoop, mmMinL]
    rw [min_eq_left le_top]
    exact tri_of_eq rfl
  | .cons c rest =>
    have IHa := maxValue_tri c alpha beta (d - 1) hab
    simp only [minLoop, mmMinL]
    set a := maxValue c alpha beta (d - 1) with ha
    set M := mmMax c (d - 1) with hM
    set mr := mmMinL rest d with hmr
    have hav : alpha < v := lt_of_lt_of_le hab hbv
    by_cases hp : min v a ≤ alpha
    · rw [if_pos hp]
      have haa : a ≤ alpha := by
        rcases le_or_lt a alpha with h | h
        · exact h
        · exact absurd hp (not_le.mpr (lt_min hav h))
      have hMa : M ≤ a := IHa.1 haa
      refine ⟨fun _ => ?_, fun hc _ => absurd hp (not_le.mpr hc),
        fun hc => absurd (le_trans hc hp) (not_le.mpr hab)⟩
      exact le_min (min_le_left _ _)
        (le_trans (le_trans (min_le_right _ _) (min_le_left _ _)) hMa)
    · rw [if_neg hp]
      have hv' : alpha < min v a := not_le.mp hp
      have hva : alpha < a := lt_of_lt_of_le hv' (min_le_right _ _)
      have IH := minLoop_tri rest alpha (min beta (min v a)) d (min v a)
        (lt_min hab hv') (min_le_right _ _)
      set r := minLoop rest alpha (min beta (min v a)) d (min v a) with hr
      rcases lt_or_le a beta with hax | hax
      · -- the child value is exact: a = M
        have haM : a = M := IHa.2.1 hva hax
        have hTT : min v (min M mr) = min (min v a) mr := by
          rw [← haM, min_assoc]
        rw [hTT]
        refine ⟨fun hc => IH.1 hc, fun hc1 hc2 => ?_, fun hc => ?_⟩
        · rcases lt_or_le r (min beta (min v a)) with hrb | hrb
          · exact IH.2.1 hc1 hrb
          · have h3 := IH.2.2 hrb
            have hvar : min v a ≤ r := by
              rcases le_total beta (min v a) with h | h
              · rw [min_eq_left h] at hrb
                exact absurd hrb (not_le.mpr hc2)
              · rw [min_eq_right h] at hrb
                exact hrb
            exact le_antisymm h3 (le_trans (min_le_left _ _) hvar)
        · exact IH.2.2 (le_trans (min_le_left _ _) hc)
      · -- the child failed high: a ≤ M
        have hMa : a ≤ M := IHa.2.2 hax
        have hvv : beta ≤ min v a := le_min hbv hax
        have hbeq : min beta (min v a) = beta := min_eq_left hvv
        rw [hbeq] at IH
        refine ⟨fun hc => ?_, fun hc1 hc2 => ?_, fun hc => ?_⟩
        · have h1 := IH.1 hc
          have hmrr : mr ≤ r := by
            rcases le_total mr (min v a) with h | h
            · rwa [min_eq_right h] at h1
            · rw [min_eq_left h] at h1
              exact absurd (le_trans hvv (le_trans h1 hc)) (not_le.mpr hab)
          exact le_trans (le_trans (min_le_right _ _) (min_le_right _ _)) hmrr
        · have hreq := IH.2.1 hc1 hc2
          have hmr_eq : r = mr := by
            rcases le_total mr (min v a) with h | h
            · rwa [min_eq_right h] at hreq
            · rw [min_eq_left h] at hreq
              rw [← hreq] at hvv
              exact absurd hvv (not_le.mpr hc2)
          have hrv : r < v := lt_of_lt_of_le hc2 hbv
          have hrM : r < M := lt_of_lt_of_le hc2 (le_trans hax hMa)
          rw [hmr_eq] at hrv hrM
          rw [hmr_eq, min_eq_right hrM.le, min_eq_right hrv.le]
        · have h3 := IH.2.2 hc
          have h4 : r ≤ min v a := le_trans h3 (min_le_left _ _)
          have h5 : r ≤ mr := le_trans h3 (min_le_right _ _)
          exact le_min (le_trans h4 (min_le_left _ _))
            (le_min (le_trans (le_trans h4 (min_le_right _ _)) hMa) h5)

theorem maxValue_tri (t : GTree) (alpha beta : Value) (d : ℤ) (hab : alpha < beta) :
    Tri (mmMax t d) alpha beta (maxValue t alpha beta d) := by
  match t with
  | .node term u sc pl l0 l1 py cs =>
    simp only [maxValue, mmMax]
    by_cases ht : term = true
    · rw [if_pos ht, if_pos ht]
      exact tri_of_eq rfl
    · rw [if_neg ht, if_neg ht]
      by_cases hd : d ≤ 0
      · rw [if_pos hd, if_pos hd]
        exact tri_of_eq rfl
      · rw [if_neg hd, if_neg hd]
        have h := maxLoop_tri cs alpha beta d ⊥ hab bot_le
        rwa [max_eq_right bot_le] at h

theorem maxLoop_tri (cs : GTreeL) (alpha beta : Value) (d : ℤ) (v : Value)
    (hab : alpha < beta) (hva : v ≤ alpha) :
    Tri (max v (mmMaxL cs d)) alpha beta (maxLoop cs alpha beta d v) := by
  match cs with
  | .nil =>
    simp only [maxLoop, mmMaxL]
    rw [max_eq_left bot_le]
    exact tri_of_eq rfl
  | .cons c rest =>
    have IHa := minValue_tri c alpha beta (d - 1) hab
    simp only [maxLoop, mmMaxL]
    set a := minValue c alpha beta (d - 1) with ha
    set m := mmMin c (d - 1) with hm
    set mr := mmMaxL rest d with hmr
    have hvb : v < beta := lt_of_le_of_lt hva hab
    by_cases hp : beta ≤ max v a
    · rw [if_pos hp]
      have hba : beta ≤ a := by
        rcases le_or_lt beta a with h | h
        · exact h
        · exact absurd hp (not_le.mpr (max_lt hvb h))
      have ham : a ≤ m := IHa.2.2 hba
      have hreq : max v a = a := max_eq_right (le_trans hva (le_trans hab.le hba))
      refine ⟨fun hc => absurd (le_trans hp hc) (not_le.mpr hab),
        fun _ hc2 => absurd hp (not_le.mpr hc2), fun _ => ?_⟩
      rw [hreq]
      exact le_trans ham (le_trans (le_max_left _ _) (le_max_right _ _))
    · rw [if_neg hp]
      have hv' : max v a < beta := not_le.mp hp
      have hva' : a < beta := lt_of_le_of_lt (le_max_right v a) hv'
      have IH := maxLoop_tri rest (max alpha (max v a)) beta d (max v a)
        (max_lt hab hv') (le_max_right _ _)
      set r := maxLoop rest (max alpha (max v a)) beta d (max v a) with hr
      rcases lt_or_le alpha a with hax | hax
      · -- the child value is exact: a = m
        have ham : a = m := IHa.2.1 hax hva'
        have hveq : max v a = a := max_eq_right (le_trans hva hax.le)
        rw [hveq] at IH
        rw [max_eq_right hax.le] at IH
        have hTT : max v (max m mr) = max a mr := by
          rw [← ham, ← max_assoc, hveq]
        rw [hTT]
        refine ⟨fun hc => IH.1 (le_trans hc hax.le), fun hc1 hc2 => ?_,
          fun hc => IH.2.2 hc⟩
        rcases lt_or_le a r with h | h
        · exact IH.2.1 h hc2
        · exact le_antisymm (le_trans h (le_max_left a mr)) (IH.1 h)
      · -- the child failed low: m ≤ a
        have hma : m ≤ a := IHa.1 hax
        have hveq2 : max v a ≤ alpha := max_le hva hax
        have haeq : max alpha (max v a) = alpha := max_eq_left hveq2
        rw [haeq] at IH
        refine ⟨fun hc => ?_, fun hc1 hc2 => ?_, fun hc => ?_⟩
        · have h1 := IH.1 hc
          have hvr : v ≤ r := le_trans (le_trans (le_max_left v a) (le_max_left _ _)) h1
          have hmr2 : mr ≤ r := le_trans (le_max_right _ _) h1
          have hmr3 : m ≤ r :=
            le_trans (le_trans (le_trans hma (le_max_right v a)) (le_max_left _ _)) h1
          exact max_le hvr (max_le hmr3 hmr2)
        · have hreq := IH.2.1 hc1 hc2
          have hlt : max v a < r := lt_of_le_of_lt hveq2 hc1
          have hrmr : r = mr := by
            rcases le_total mr (max v a) with h | h
            · rw [max_eq_left h] at hreq
              exact absurd hreq (ne_of_gt hlt)
            · rwa [max_eq_right h] at hreq
          have hv_mr : v < mr := lt_of_le_of_lt hva (hrmr ▸ hc1)
          have hm_mr : m < mr := lt_of_le_of_lt (le_trans hma hax) (hrmr ▸ hc1)
          rw [hrmr, max_eq_right hm_mr.le, max_eq_right hv_mr.le]
        · have h3 := IH.2.2 hc
          have hvar : max v a < r := lt_of_le_of_lt hveq2 (lt_of_lt_of_le hab hc)
          have hrmr : r ≤ mr := by
            rcases le_total mr (max v a) with h | h
            · rw [max_eq_left h] at h3
              exact absurd h3 (not_le.mpr hvar)
            · rwa [max_eq_right h] at h3
          exact le_trans hrmr (le_trans (le_max_right m mr) (le_max_right v _))

end

/-- With the full window `(-inf, inf)` the trichotomy collapses to exact
equality. -/
theorem tri_full_eq {m r : Value} (h : Tri m ⊥ ⊤ r) : r = m := by
  by_cases hb : r ≤ ⊥
  · exact le_antisymm (le_trans hb bot_le) (h.1 hb)
  · by_cases ht : (⊤ : Value) ≤ r
    · exact le_antisymm (h.2.2 ht) (le_trans le_top ht)
    · exact h.2.1 (not_le.mp hb) (not_le.mp ht)

theorem minValue_eq_mmMin (t : GTree) (d : ℤ) : minValue t ⊥ ⊤ d = mmMin t d :=
  tri_full_eq (minValue_tri t ⊥ ⊤ d bot_lt_top)

theorem maxValue_eq_mmMax (t : GTree) (d : ℤ) : maxValue t ⊥ ⊤ d = mmMax t d :=
  tri_full_eq (maxValue_tri t ⊥ ⊤ d bot_lt_top)

theorem pyFold_congr {α β : Type} [LinearOrder β] (f g : α → β) :
    ∀ (xs : List α) (x : α), (∀ z ∈ x :: xs, f z = g z) →
      xs.foldl (fun b y => if f b < f y then y else b) x =
      xs.foldl (fun b y => if g b < g y then y else b) x := by
  intro xs
  induction xs with
  | nil => intro x _; rfl
  | cons y ys ih =>
    intro x h
    have hx := h x (by simp)
    have hy := h y (by simp)
    simp only [List.foldl_cons]
    rw [hx, hy]
    have hmem : ∀ z ∈ (if g x < g y then y else x) :: ys, f z = g z := by
      intro z hz
      rcases List.mem_cons.mp hz with hz | hz
      · subst hz
        split
        · exact hy
        · exact hx
      · exact h z (by simp [hz])
    exact ih _ hmem

theorem pyMax_congr {α β : Type} [LinearOrder β] (f g : α → β) (l : List α)
    (h : ∀ x ∈ l, f x = g x) : pyMax f l = pyMax g l := by
  cases l with
  | nil => rfl
  | cons x xs =>
    simp only [pyMax]
    rw [pyFold_congr f g xs x h]

/-! ### Properties of the Python max-with-key -/

theorem pyFold_spec {α β : Type} [LinearOrder β] (f : α → β) :
    ∀ (xs : List α) (x : α),
      (xs.foldl (fun b y => if f b < f y then y else b) x = x ∧ ∀ y ∈ xs, f y ≤ f x) ∨
      (∃ xs1 m xs2, xs = xs1 ++ m :: xs2 ∧
        xs.foldl (fun b y => if f b < f y then y else b) x = m ∧
        f x < f m ∧ (∀ y ∈ xs1, f y < f m) ∧ (∀ y ∈ xs2, f y ≤ f m)) := by
  intro xs
  induction xs with
  | nil => intro x; exact Or.inl ⟨rfl, by simp⟩
  | cons y ys ih =>
    intro x
    simp only [List.foldl_cons]
    by_cases hc : f x < f y
    · rw [if_pos hc]
      rcases ih y with ⟨heq, hall⟩ | ⟨xs1, m, xs2, hsplit, heq, hlt, h1, h2⟩
      · exact Or.inr ⟨[], y, ys, by simp, heq, hc, by simp, hall⟩
      · refine Or.inr ⟨y :: xs1, m, xs2, by rw [hsplit, List.cons_append], heq,
          lt_trans hc hlt, ?_, h2⟩
        intro z hz
        rcases List.mem_cons.mp hz with hz | hz
        · rw [hz]; exact hlt
        · exact h1 z hz
    · rw [if_neg hc]
      have hyx : f y ≤ f x := not_lt.mp hc
      rcases ih x with ⟨heq, hall⟩ | ⟨xs1, m, xs2, hsplit, heq, hlt, h1, h2⟩
      · refine Or.inl ⟨heq, ?_⟩
        intro z hz
        rcases List.mem_cons.mp hz with hz | hz
        · rw [hz]; exact hyx
        · exact hall z hz
      · refine Or.inr ⟨y :: xs1, m, xs2, by rw [hsplit, List.cons_append], heq, hlt, ?_, h2⟩
        intro z hz
        rcases List.mem_cons.mp hz with hz | hz
        · rw [hz]; exact lt_of_le_of_lt hyx hlt
        · exact h1 z hz

/-- Python max-with-key returns the first element attaining the maximal
key: everything strictly before it has a strictly smaller key, everything
after it a key at most as large. -/
theorem pyMax_spec {α β : Type} [LinearOrder β] (f : α → β) (l : List α) (m : α)
    (h : pyMax f l = some m) :
    ∃ l1 l2, l = l1 ++ m :: l2 ∧ (∀ y ∈ l1, f y < f m) ∧ (∀ y ∈ l2, f y ≤ f m) := by
  match l with
  | [] => exact absurd h (by simp [pyMax])
  | x :: xs =>
    simp only [pyMax, Option.some.injEq] at h
    rcases pyFold_spec f xs x with ⟨heq, hall⟩ | ⟨xs1, mm, xs2, hsplit, heq, hlt, h1, h2⟩
    · rw [heq] at h
      subst h
      exact ⟨[], xs, by simp, by simp, hall⟩
    · rw [heq] at h
      subst h
      refine ⟨x :: xs1, xs2, by rw [hsplit, List.cons_append], ?_, h2⟩
      intro z hz
      rcases List.mem_cons.mp hz with hz | hz
      · rw [hz]; exact hlt
      · exact h1 z hz

theorem pyMax_isSome {α β : Type} [LinearOrder β] (f : α → β) (l : List α)
    (h : l ≠ []) : ∃ m, pyMax f l = some m := by
  match l with
  | [] => exact absurd rfl h
  | x :: xs => exact ⟨_, rfl⟩

/-- Splitting `List.range n` around an element determines the element and
the prefix. -/
theorem range_split {n a : ℕ} {l1 l2 : List ℕ}
    (h : List.range n = l1 ++ a :: l2) : a < n ∧ l1 = List.range a := by
  have hlen : l1.length < n := by
    have hc := congrArg List.length h
    simp [List.length_append] at hc
    omega
  have hget : (List.range n)[l1.length]? = some a := by
    rw [h, List.getElem?_append_right (le_refl l1.length)]
    simp
  rw [List.getElem?_range hlen] at hget
  have ha : l1.length = a := by
    simpa using hget
  have ht : (List.range n).take l1.length = l1 := by
    rw [h]
    exact List.take_left l1 (a :: l2)
  subst ha
  refine ⟨hlen, ?_⟩
  calc l1 = (List.range n).take l1.length := ht.symm
    _ = List.range (min l1.length n) := List.take_range _ _
    _ = List.range l1.length := by rw [min_eq_left hlen.le]

/-! ### Claim C1 -/

/-- C1: for every state and every fixed depth limit, the action computed
by the pruned `minimax_alpha_beta` (pruning at `value <= alpha` in
`min_value` and at `value >= beta` in `max_value`) equals the action
computed by the unpruned depth-limited minimax over the same tree with the
same score heuristic and the same first-occurrence tie-breaking, and the
pruned `min_value`/`max_value` at the full window `(-inf, inf)` compute
exactly the unpruned minimax values. -/
theorem alphabeta_equals_unpruned_minimax :
    ∀ (t : GTree) (depth : ℤ),
      minimax_alpha_beta t depth = minimax_unpruned t depth ∧
      minValue t ⊥ ⊤ depth = mmMin t depth ∧
      maxValue t ⊥ ⊤ depth = mmMax t depth := by
  intro t depth
  refine ⟨?_, minValue_eq_mmMin t depth, maxValue_eq_mmMax t depth⟩
  exact pyMax_congr _ _ _ fun a _ => minValue_eq_mmMin (t.result a) (depth - 1)

/-! ### Claim C6 -/

/-- C6: at a non-terminal root with a non-empty action list and depth ≥ 1,
`minimax_alpha_beta` returns the action maximizing
`min_value(result(a), -inf, +inf, depth - 1)`, and among several maximizers
the first in the enumeration order of `state.actions()`. -/
theorem minimax_root_selection (t : GTree) (depth : ℤ)
    (_hterm : t.terminal = false) (hne : t.actions ≠ []) (_hd : 1 ≤ depth) :
    ∃ a, minimax_alpha_beta t depth = some a ∧ a ∈ t.actions ∧
      (∀ b ∈ t.actions,
        minValue (t.result b) ⊥ ⊤ (depth - 1) ≤ minValue (t.result a) ⊥ ⊤ (depth - 1)) ∧
      (∀ b ∈ t.actions, b < a →
        minValue (t.result b) ⊥ ⊤ (depth - 1) < minValue (t.result a) ⊥ ⊤ (depth - 1)) := by
  obtain ⟨a, hsome⟩ :=
    pyMax_isSome (fun x => minValue (t.result x) ⊥ ⊤ (depth - 1)) t.actions hne
  obtain ⟨l1, l2, hsplit, hstrict, hle⟩ := pyMax_spec _ _ _ hsome
  have hsplit2 : List.range t.children.length = l1 ++ a :: l2 := hsplit
  obtain ⟨han, hl1⟩ := range_split hsplit2
  refine ⟨a, hsome, ?_, ?_, ?_⟩
  · rw [hsplit]
    simp
  · intro b hb
    rw [hsplit] at hb
    rcases List.mem_append.mp hb with hb | hb
    · exact (hstrict b hb).le
    · rcases List.mem_cons.mp hb with hb | hb
      · rw [hb]
      · exact hle b hb
  · intro b hb hba
    refine hstrict b ?_
    rw [hl1]
    exact List.mem_range.mpr hba

/-- Witness for C6: the hypotheses hold and the theorem applies at a
concrete tree and depth. -/
theorem minimax_root_selection_witness :
    ∃ a, minimax_alpha_beta sRoot 1 = some a ∧ a ∈ sRoot.actions ∧
      (∀ b ∈ sRoot.actions,
        minValue (sRoot.result b) ⊥ ⊤ (1 - 1) ≤ minValue (sRoot.result a) ⊥ ⊤ (1 - 1)) ∧
      (∀ b ∈ sRoot.actions, b < a →
        minValue (sRoot.result b) ⊥ ⊤ (1 - 1) < minValue (sRoot.result a) ⊥ ⊤ (1 - 1)) :=
  minimax_root_selection sRoot 1 (by decide) (by decide) (by decide)

/-! ### Claims C7 and C8 -/

/-- C7: for `ply_count >= 2` at a non-terminal root with legal actions,
`MinimaxAlphaBetaPlayer.get_action` pushes one completed-depth result per
depth, for every depth from 1 up to the fixed ceiling 5, in increasing
depth order; every push (the depth-1 one and all later ones) is `some`
legal action, so the sink is never left empty after depth 1 completes. -/
theorem iterative_deepening_pushes (r : ℕ) (t : GTree)
    (hp : 2 ≤ t.ply) (_hterm : t.terminal = false) (hne : t.actions ≠ []) :
    mm_get_action r t =
      [minimax_alpha_beta t 1, minimax_alpha_beta t 2, minimax_alpha_beta t 3,
        minimax_alpha_beta t 4, minimax_alpha_beta t 5] ∧
    (mm_get_action r t).length = 5 ∧
    (∀ o ∈ mm_get_action r t, ∃ a, o = some a ∧ a ∈ t.actions) := by
  have htrace : mm_get_action r t =
      [minimax_alpha_beta t 1, minimax_alpha_beta t 2, minimax_alpha_beta t 3,
        minimax_alpha_beta t 4, minimax_alpha_beta t 5] := by
    rw [mm_get_action, if_neg (by omega)]
    norm_num [List.range_succ]
  have hmem : ∀ d : ℤ, ∃ a, minimax_alpha_beta t d = some a ∧ a ∈ t.actions := by
    intro d
    obtain ⟨m, hm⟩ :=
      pyMax_isSome (fun x => minValue (t.result x) ⊥ ⊤ (d - 1)) t.actions hne
    obtain ⟨l1, l2, hsplit, -, -⟩ := pyMax_spec _ _ _ hm
    exact ⟨m, hm, by rw [hsplit]; simp⟩
  refine ⟨htrace, by rw [htrace]; rfl, ?_⟩
  intro o ho
  rw [htrace] at ho
  simp only [List.mem_cons, List.not_mem_nil, or_false] at ho
  rcases ho with h | h | h | h | h <;> (rw [h]; exact hmem _)

/-- Witness for C7 at a concrete tree. -/
theorem iterative_deepening_pushes_witness :
    mm_get_action 0 sRoot =
      [minimax_alpha_beta sRoot 1, minimax_alpha_beta sRoot 2, minimax_alpha_beta sRoot 3,
        minimax_alpha_beta sRoot 4, minimax_alpha_beta sRoot 5] ∧
    (mm_get_action 0 sRoot).length = 5 ∧
    (∀ o ∈ mm_get_action 0 sRoot, ∃ a, o = some a ∧ a ∈ sRoot.actions) :=
  iterative_deepening_pushes 0 sRoot (by decide) (by decide) (by decide)

/-- C8: for `ply_count < 2` with a non-empty action list, both engines
push exactly one value — `random.choice(state.actions())` — and perform no
search: the pushed trace is the single random element, which is a legal
action for every draw, and every legal action is obtainable by some
draw. -/
theorem opening_policy_random (r : ℕ) (rounds : List (List ℕ)) (r0 : ℕ) (t : GTree)
    (hp : t.ply < 2) (hne : t.actions ≠ []) :
    mm_get_action r t = [randChoice r t.actions] ∧
    mc_get_action r rounds r0 t = [randChoice r t.actions] ∧
    (∃ a, randChoice r t.actions = some a ∧ a ∈ t.actions) ∧
    (∀ a ∈ t.actions, ∃ rr, randChoice rr t.actions = some a) := by
  have h1 : mm_get_action r t = [randChoice r t.actions] := by
    rw [mm_get_action, if_pos hp]
  have h2 : mc_get_action r rounds r0 t = [randChoice r t.actions] := by
    rw [mc_get_action, if_pos hp]
  refine ⟨h1, h2, ?_, ?_⟩
  · have hlen : 0 < t.actions.length := List.length_pos.mpr hne
    have hmod : r % t.actions.length < t.actions.length := Nat.mod_lt _ hlen
    exact ⟨_, List.getElem?_eq_getElem hmod, List.getElem_mem _⟩
  · intro a ha
    obtain ⟨i, hi, hget⟩ := List.getElem_of_mem ha
    refine ⟨i, ?_⟩
    rw [randChoice, Nat.mod_eq_of_lt hi]
    rw [List.getElem?_eq_getElem hi, hget]

/-- Witness for C8 at a concrete opening state. -/
theorem opening_policy_random_witness :
    mm_get_action 0 sOpen = [randChoice 0 sOpen.actions] ∧
    mc_get_action 0 [] 0 sOpen = [randChoice 0 sOpen.actions] ∧
    (∃ a, randChoice 0 sOpen.actions = some a ∧ a ∈ sOpen.actions) ∧
    (∀ a ∈ sOpen.actions, ∃ rr, randChoice rr sOpen.actions = some a) :=
  opening_policy_random 0 [] 0 sOpen (by decide) (by decide)

/-! ### Claims C2 and C10: the rollout policy -/

/-- A state returned by the playout loop is terminal. -/
theorem rolloutLoop_terminal : ∀ (rs : List ℕ) (t ts : GTree),
    rolloutLoop rs t = some ts → ts.terminal = true := by
  intro rs
  induction rs with
  | nil =>
    intro t ts h
    rw [rolloutLoop] at h
    by_cases hterm : t.terminal = true
    · rw [if_pos hterm] at h
      obtain rfl : t = ts := by injection h
      exact hterm
    · rw [if_neg hterm] at h
      exact absurd h (by simp)
  | cons r rest ih =>
    intro t ts h
    rw [rolloutLoop] at h
    by_cases hterm : t.terminal = true
    · rw [if_pos hterm] at h
      obtain rfl : t = ts := by injection h
      exact hterm
    · rw [if_neg hterm] at h
      rcases hrc : randChoice r t.actions with _ | a
      · rw [hrc] at h
        exact absurd h (by simp)
      · rw [hrc] at h
        exact ih _ _ h

/-- C2 (amended): `rollout_policy` plays uniformly random legal actions
from the node's state until a terminal state is reached, and returns `-1`
if the player who was to move at the expanded node (`node.state.player()`)
has liberties in the terminal state, `+1` otherwise — the opposite sign of
the claim as stated. -/
theorem rollout_policy_reward (rs : List ℕ) (node : MCTree) (p : ℕ) (ts : GTree)
    (h : rolloutLoop rs node.state = some ts) :
    ts.terminal = true ∧
    rollout_policy rs node p =
      some (if ts.hasLiberties node.state.player = true then (-1 : ℤ) else 1) ∧
    (∀ (t2 : GTree), t2.terminal = true → ∀ rs2, rolloutLoop rs2 t2 = some t2) ∧
    (∀ (r : ℕ) (rest : List ℕ) (t2 : GTree), t2.terminal = false →
      rolloutLoop (r :: rest) t2 =
        match randChoice r t2.actions with
        | none => none
        | some a => rolloutLoop rest (t2.result a)) := by
  refine ⟨rolloutLoop_terminal rs node.state ts h, ?_, ?_, ?_⟩
  · rw [rollout_policy, h]
    rfl
  · intro t2 ht rs2
    rw [rolloutLoop.eq_def, if_pos ht]
  · intro r rest t2 ht
    rw [rolloutLoop.eq_def, if_neg (by simp [ht])]

/-- Witness for C2 as amended, at a node whose state is already
terminal. -/
theorem rollout_policy_reward_witness :
    sLoss.terminal = true ∧
    rollout_policy [] (mkNode sLoss) 0 =
      some (if sLoss.hasLiberties ((mkNode sLoss).state.player) = true then (-1 : ℤ) else 1) ∧
    (∀ (t2 : GTree), t2.terminal = true → ∀ rs2, rolloutLoop rs2 t2 = some t2) ∧
    (∀ (r : ℕ) (rest : List ℕ) (t2 : GTree), t2.terminal = false →
      rolloutLoop (r :: rest) t2 =
        match randChoice r t2.actions with
        | none => none
        | some a => rolloutLoop rest (t2.result a)) :=
  rollout_policy_reward [] (mkNode sLoss) 0 sLoss rfl

/-- C2 counterexample: at an expanded node whose state is terminal with
the player to move (`node.state.player()`) still holding liberties, the
code returns reward `-1`, not the `+1` the claim states. -/
theorem rollout_reward_counterexample :
    rolloutLoop [] (mkNode sWin).state = some sWin ∧
    sWin.hasLiberties ((mkNode sWin).state.player) = true ∧
    rollout_policy [] (mkNode sWin) 0 = some (-1) ∧
    rollout_policy [] (mkNode sWin) 0 ≠ some 1 :=
  ⟨rfl, rfl, rfl, by decide⟩

/-- C10: the `player` argument of `rollout_policy` has no influence on the
result: with the same random stream, any two player identifiers yield the
same reward, which is determined solely by the random playout from
`node.state` and by `node.state.player()`. -/
theorem rollout_player_arg_irrelevant :
    ∀ (rs : List ℕ) (node : MCTree) (p1 p2 : ℕ),
      rollout_policy rs node p1 = rollout_policy rs node p2 ∧
      rollout_policy rs node p1 =
        (rolloutLoop rs node.state).map fun ts =>
          if ts.hasLiberties node.state.player = true then (-1 : ℤ) else 1 := by
  intro rs node p1 p2
  exact ⟨rfl, rfl⟩

/-! ### Claim C3: terminal root in monte_carlo_uct -/

/-- C3 (amended): if the root state is terminal, `monte_carlo_uct` returns
`random.choice(state.actions())` immediately, independent of the search
budget (hence with no tree expansion); this is a uniformly random legal
action when `actions()` is non-empty, but when — as the spec's own data
model prescribes for terminal states — there are zero legal actions, the
choice fails (Python raises IndexError) and no action is returned. -/
theorem mcts_terminal_root (t : GTree) (h : t.terminal = true) :
    (∀ (rounds : List (List ℕ)) (r0 : ℕ),
      monte_carlo_uct rounds r0 t = randChoice r0 t.actions) ∧
    (∀ (r0 a : ℕ), randChoice r0 t.actions = some a → a ∈ t.actions) ∧
    (∀ a ∈ t.actions, ∃ r0, randChoice r0 t.actions = some a) ∧
    (t.actions = [] →
      ∀ (rounds : List (List ℕ)) (r0 : ℕ), monte_carlo_uct rounds r0 t = none) := by
  have hmc : ∀ (rounds : List (List ℕ)) (r0 : ℕ),
      monte_carlo_uct rounds r0 t = randChoice r0 t.actions := by
    intro rounds r0
    rw [monte_carlo_uct, if_pos h]
  refine ⟨hmc, ?_, ?_, ?_⟩
  · intro r0 a ha
    rw [randChoice] at ha
    exact List.getElem?_mem ha
  · intro a ha
    obtain ⟨i, hi, hget⟩ := List.getElem_of_mem ha
    refine ⟨i, ?_⟩
    rw [randChoice, Nat.mod_eq_of_lt hi, List.getElem?_eq_getElem hi, hget]
  · intro hnil rounds r0
    rw [hmc rounds r0, randChoice, hnil]
    rfl

/-- Witness for C3 as amended, at a concrete terminal state. -/
theorem mcts_terminal_root_witness :
    (∀ (rounds : List (List ℕ)) (r0 : ℕ),
      monte_carlo_uct rounds r0 sWin = randChoice r0 sWin.actions) ∧
    (∀ (r0 a : ℕ), randChoice r0 sWin.actions = some a → a ∈ sWin.actions) ∧
    (∀ a ∈ sWin.actions, ∃ r0, randChoice r0 sWin.actions = some a) ∧
    (sWin.actions = [] →
      ∀ (rounds : List (List ℕ)) (r0 : ℕ), monte_carlo_uct rounds r0 sWin = none) :=
  mcts_terminal_root sWin rfl

/-- C3 counterexample: at a terminal root state with zero legal actions —
which is what the spec's own data model prescribes for terminal states —
`monte_carlo_uct` does not return a legal action: `random.choice` of the
empty action list fails. -/
theorem mcts_terminal_root_counterexample :
    sLoss.terminal = true ∧ sLoss.actions = [] ∧
    monte_carlo_uct [] 0 sLoss = none := by
  refine ⟨rfl, rfl, ?_⟩
  rw [monte_carlo_uct, if_pos (show sLoss.terminal = true from rfl)]
  rfl

/-! ### Claim C4: backpropagation -/

theorem update_visits (n : MCTree) (v : ℝ) : (n.update v).visits = n.visits + 1 := by
  cases n; rfl

theorem update_value (n : MCTree) (v : ℝ) : (n.update v).value = n.value + v := by
  cases n; rfl

theorem update_state (n : MCTree) (v : ℝ) : (n.update v).state = n.state := by
  cases n; rfl

theorem update_children (n : MCTree) (v : ℝ) : (n.update v).children = n.children := by
  cases n; rfl

theorem update_child_actions (n : MCTree) (v : ℝ) :
    (n.update v).child_actions = n.child_actions := by
  cases n; rfl

theorem setChild_visits (n : MCTree) (i : ℕ) (c : MCTree) :
    (n.setChild i c).visits = n.visits := by
  cases n; rfl

theorem setChild_value (n : MCTree) (i : ℕ) (c : MCTree) :
    (n.setChild i c).value = n.value := by
  cases n; rfl

theorem setChild_state (n : MCTree) (i : ℕ) (c : MCTree) :
    (n.setChild i c).state = n.state := by
  cases n; rfl

theorem setChild_child_actions (n : MCTree) (i : ℕ) (c : MCTree) :
    (n.setChild i c).child_actions = n.child_actions := by
  cases n; rfl

theorem setChild_children (n : MCTree) (i : ℕ) (c : MCTree) :
    (n.setChild i c).children = setChildAt n.children i c := by
  cases n; rfl

theorem setChildAt_length : ∀ (l : List MCTree) (i : ℕ) (c : MCTree),
    (setChildAt l i c).length = l.length := by
  intro l
  induction l with
  | nil => intro i c; rfl
  | cons x xs ih =>
    intro i c
    cases i with
    | zero => rfl
    | succ j => simp [setChildAt, ih]

theorem lt_length_of_getElem? {α : Type} {l : List α} {i : ℕ} {x : α}
    (h : l[i]? = some x) : i < l.length := by
  rcases List.getElem?_eq_some.mp h with ⟨hi, -⟩
  exact hi

theorem setChildAt_getElem_self : ∀ (l : List MCTree) (i : ℕ) (c : MCTree),
    i < l.length → (setChildAt l i c)[i]? = some c := by
  intro l
  induction l with
  | nil => intro i c h; simp at h
  | cons x xs ih =>
    intro i c h
    cases i with
    | zero => simp [setChildAt]
    | succ j =>
      simp only [setChildAt]
      rw [List.getElem?_cons_succ]
      exact ih j c (by simpa using h)

theorem setChildAt_getElem_other : ∀ (l : List MCTree) (i j : ℕ) (c : MCTree),
    j ≠ i → (setChildAt l i c)[j]? = l[j]? := by
  intro l
  induction l with
  | nil => intro i j c _; rfl
  | cons x xs ih =>
    intro i j c h
    cases i with
    | zero =>
      cases j with
      | zero => exact absurd rfl h
      | succ k => simp [setChildAt]
    | succ i2 =>
      cases j with
      | zero => simp [setChildAt]
      | succ k =>
        simp only [setChildAt]
        rw [List.getElem?_cons_succ, List.getElem?_cons_succ]
        exact ih i2 k c (by omega)

theorem backprop_cons_none (n : MCTree) (i : ℕ) (p : List ℕ) (v : ℝ)
    (h : n.children[i]? = none) :
    backprop n (i :: p) v = n.update ((-1 : ℝ) ^ (p.length + 1) * v) := by
  rw [backprop, h]

theorem backprop_cons_some (n : MCTree) (i : ℕ) (p : List ℕ) (v : ℝ) (c : MCTree)
    (h : n.children[i]? = some c) :
    backprop n (i :: p) v =
      (n.update ((-1 : ℝ) ^ (p.length + 1) * v)).setChild i (backprop c p v) := by
  rw [backprop, h]

/-- C4: one `backprop(leaf, v)` call increments the visit counter of the
leaf and of every ancestor up to the root by exactly 1 and adds
`(-1) ^ d * v` to the value of the node at distance `d` above the leaf
(`d = 0` at the leaf); the state, attempted-action list and child count of
every updated node, and every node off the leaf's ancestor chain, are
unchanged. -/
theorem backprop_update_spec (path : List ℕ) (n : MCTree) (v : ℝ) :
    (∀ dist : ℕ, dist ≤ path.length →
      ∀ m, getNodeAt n (path.take (path.length - dist)) = some m →
        ∃ m2, getNodeAt (backprop n path v) (path.take (path.length - dist)) = some m2 ∧
          m2.visits = m.visits + 1 ∧
          m2.value = m.value + (-1 : ℝ) ^ dist * v ∧
          m2.state = m.state ∧
          m2.child_actions = m.child_actions ∧
          m2.children.length = m.children.length) ∧
    (∀ (k : ℕ) (hk : k < path.length) (j : ℕ), j ≠ path.get ⟨k, hk⟩ →
      getNodeAt (backprop n path v) (path.take k ++ [j]) =
        getNodeAt n (path.take k ++ [j])) := by
  induction path generalizing n with
  | nil =>
    refine ⟨?_, ?_⟩
    · intro dist hd m hm
      obtain rfl : dist = 0 := Nat.le_zero.mp hd
      simp only [getNodeAt, List.length_nil, Nat.zero_sub, List.take_nil,
        Option.some.injEq] at hm
      subst hm
      refine ⟨n.update v, rfl, update_visits n v, ?_, update_state n v,
        update_child_actions n v, by rw [update_children]⟩
      rw [update_value, pow_zero, one_mul]
    · intro k hk
      simp at hk
  | cons i p ih =>
    refine ⟨?_, ?_⟩
    · intro dist hd m hm
      rcases Nat.lt_or_ge dist (i :: p).length with hlt | hge
      · -- the node lies strictly below the root: step into the child
        have hdp : dist ≤ p.length := by
          simp only [List.length_cons] at hlt
          omega
        have htk : (i :: p).length - dist = (p.length - dist) + 1 := by
          simp only [List.length_cons]
          omega
        rw [htk, List.take_succ_cons] at hm ⊢
        simp only [getNodeAt] at hm ⊢
        rcases hci : n.children[i]? with _ | c
        · rw [hci] at hm
          exact absurd hm (by simp)
        · rw [hci] at hm
          have hci2 : i < n.children.length := lt_length_of_getElem? hci
          obtain ⟨m2, hm2, h1, h2, h3, h4, h5⟩ := (ih c).1 dist hdp m hm
          refine ⟨m2, ?_, h1, h2, h3, h4, h5⟩
          rw [backprop_cons_some n i p v c hci]
          rw [setChild_children, update_children,
            setChildAt_getElem_self _ _ _ hci2]
          exact hm2
      · -- the node is the root itself
        obtain rfl : dist = (i :: p).length := le_antisymm hd hge
        simp only [Nat.sub_self, List.take_zero, getNodeAt, Option.some.injEq] at hm
        subst hm
        rcases hci : n.children[i]? with _ | c
        · rw [backprop_cons_none n i p v hci]
          simp only [Nat.sub_self, List.take_zero, getNodeAt]
          refine ⟨_, rfl, update_visits _ _, ?_, update_state _ _,
            update_child_actions _ _, by rw [update_children]⟩
          rw [update_value]
          simp [List.length_cons]
        · rw [backprop_cons_some n i p v c hci]
          simp only [Nat.sub_self, List.take_zero, getNodeAt]
          refine ⟨_, rfl, ?_, ?_, ?_, ?_, ?_⟩
          · rw [setChild_visits, update_visits]
          · rw [setChild_value, update_value]
            simp [List.length_cons]
          · rw [setChild_state, update_state]
          · rw [setChild_child_actions, update_child_actions]
          · rw [setChild_children, update_children, setChildAt_length]
    · intro k hk j hj
      rcases hci : n.children[i]? with _ | c
      · -- degenerate tree (no child on the path): only the root changes
        rw [backprop_cons_none n i p v hci]
        cases k with
        | zero =>
          simp only [List.take_zero, List.nil_append, getNodeAt, update_children]
        | succ k2 =>
          simp only [List.take_succ_cons, List.cons_append, getNodeAt,
            update_children, hci]
      · have hci2 : i < n.children.length := lt_length_of_getElem? hci
        rw [backprop_cons_some n i p v c hci]
        cases k with
        | zero =>
          have hji : j ≠ i := by
            simpa using hj
          simp only [List.take_zero, List.nil_append, getNodeAt,
            setChild_children, update_children,
            setChildAt_getElem_other _ _ _ _ hji]
        | succ k2 =>
          have hk2 : k2 < p.length := by
            simpa using hk
          have hj2 : j ≠ p.get ⟨k2, hk2⟩ := by
            simpa using hj
          simp only [List.take_succ_cons, List.cons_append, getNodeAt,
            setChild_children, update_children, hci,
            setChildAt_getElem_self _ _ _ hci2]
          exact (ih c).2 k2 hk2 j hj2

/-- Witness for C4: backprop of reward 1 along the one-step path of a
concrete two-node tree, checked at the leaf (distance 0). -/
theorem backprop_update_spec_witness :
    ∃ m2, getNodeAt (backprop wRoot [0] 1) ([0].take ([0].length - 0)) = some m2 ∧
      m2.visits = wLeaf.visits + 1 ∧
      m2.value = wLeaf.value + (-1 : ℝ) ^ 0 * 1 ∧
      m2.state = wLeaf.state ∧
      m2.child_actions = wLeaf.child_actions ∧
      m2.children.length = wLeaf.children.length :=
  (backprop_update_spec [0] wRoot 1).1 0 (by decide) wLeaf rfl

/-! ### Claim C9: expansion -/

theorem add_child_children (n : MCTree) (s : GTree) (a : ℕ) :
    (n.add_child s a).children = n.children ++ [mkNode s] := by
  cases n; rfl

theorem add_child_child_actions (n : MCTree) (s : GTree) (a : ℕ) :
    (n.add_child s a).child_actions = n.child_actions ++ [a] := by
  cases n; rfl

theorem add_child_visits (n : MCTree) (s : GTree) (a : ℕ) :
    (n.add_child s a).visits = n.visits := by
  cases n; rfl

theorem add_child_value (n : MCTree) (s : GTree) (a : ℕ) :
    (n.add_child s a).value = n.value := by
  cases n; rfl

theorem add_child_state (n : MCTree) (s : GTree) (a : ℕ) :
    (n.add_child s a).state = n.state := by
  cases n; rfl

/-- `List.find?` returns the first element satisfying the predicate. -/
theorem find?_first {α : Type} (p : α → Bool) :
    ∀ (l : List α) (x : α), l.find? p = some x →
      p x = true ∧ ∃ l1 l2, l = l1 ++ x :: l2 ∧ ∀ y ∈ l1, p y = false := by
  intro l
  induction l with
  | nil => intro x h; exact absurd h (by simp)
  | cons a as ih =>
    intro x h
    by_cases hpa : p a = true
    · rw [List.find?_cons_of_pos _ hpa] at h
      injection h with h
      subst h
      exact ⟨hpa, [], as, rfl, by simp⟩
    · have hpa2 : p a = false := by simpa using hpa
      rw [List.find?_cons_of_neg _ (by simp [hpa2])] at h
      obtain ⟨hx, l1, l2, hsplit, hfalse⟩ := ih x h
      refine ⟨hx, a :: l1, l2, by rw [hsplit, List.cons_append], ?_⟩
      intro y hy
      rcases List.mem_cons.mp hy with hy | hy
      · rw [hy]
        exact hpa2
      · exact hfalse y hy

/-- C9: on a node with at least one untried legal action, `expand`
attaches exactly one new child, for the first untried action in the
enumeration order of `state.actions()`; the child's state is
`state.result(action)`, the child is returned (`children[-1]`), and the
attempted-action list stays duplicate-free. -/
theorem expand_first_untried (n : MCTree)
    (h : ∃ a ∈ n.state.actions, a ∉ n.child_actions) :
    ∃ a n2, firstUntried n = some a ∧
      expand n = some (n2, n.children.length) ∧
      a ∈ n.state.actions ∧ a ∉ n.child_actions ∧
      (∀ b ∈ n.state.actions, b < a → b ∈ n.child_actions) ∧
      n2.children = n.children ++ [mkNode (n.state.result a)] ∧
      n2.child_actions = n.child_actions ++ [a] ∧
      n2.children[n.children.length]? = some (mkNode (n.state.result a)) ∧
      (mkNode (n.state.result a)).visits = 1 ∧
      (mkNode (n.state.result a)).value = 0 ∧
      (mkNode (n.state.result a)).children = [] ∧
      (mkNode (n.state.result a)).child_actions = [] ∧
      n2.visits = n.visits ∧ n2.value = n.value ∧ n2.state = n.state ∧
      (n.child_actions.Nodup → n2.child_actions.Nodup) := by
  obtain ⟨a0, ha0, hnot0⟩ := h
  have hfs : (n.state.actions.find? fun x => ! n.child_actions.contains x).isSome := by
    rw [List.find?_isSome]
    exact ⟨a0, ha0, by simpa using hnot0⟩
  obtain ⟨a, hfind⟩ := Option.isSome_iff_exists.mp hfs
  have hfind2 : firstUntried n = some a := hfind
  obtain ⟨hpa, l1, l2, hsplit, hfalse⟩ := find?_first _ _ _ hfind
  have hnotmem : a ∉ n.child_actions := by simpa using hpa
  have hmem : a ∈ n.state.actions := by rw [hsplit]; simp
  have hfirst : ∀ b ∈ n.state.actions, b < a → b ∈ n.child_actions := by
    intro b hb hba
    have hsplit2 : List.range n.state.children.length = l1 ++ a :: l2 := hsplit
    obtain ⟨-, hl1⟩ := range_split hsplit2
    have hbl1 : b ∈ l1 := by
      rw [hl1]
      exact List.mem_range.mpr hba
    have hb2 := hfalse b hbl1
    simpa using hb2
  refine ⟨a, n.add_child (n.state.result a) a, hfind2, ?_, hmem, hnotmem, hfirst,
    add_child_children n _ a, add_child_child_actions n _ a, ?_, rfl, rfl, rfl, rfl,
    add_child_visits n _ a, add_child_value n _ a, add_child_state n _ a, ?_⟩
  · rw [expand, hfind2]
    rfl
  · rw [add_child_children]
    exact List.getElem?_concat_length n.children (mkNode (n.state.result a))
  · intro hnd
    rw [add_child_child_actions, List.nodup_append]
    refine ⟨hnd, List.nodup_singleton a, ?_⟩
    simp [List.disjoint_singleton]
    exact hnotmem

/-- Witness for C9 at a concrete unexpanded node. -/
theorem expand_first_untried_witness :
    ∃ a n2, firstUntried wFresh = some a ∧
      expand wFresh = some (n2, wFresh.children.length) ∧
      a ∈ wFresh.state.actions ∧ a ∉ wFresh.child_actions ∧
      (∀ b ∈ wFresh.state.actions, b < a → b ∈ wFresh.child_actions) ∧
      n2.children = wFresh.children ++ [mkNode (wFresh.state.result a)] ∧
      n2.child_actions = wFresh.child_actions ++ [a] ∧
      n2.children[wFresh.children.length]? = some (mkNode (wFresh.state.result a)) ∧
      (mkNode (wFresh.state.result a)).visits = 1 ∧
      (mkNode (wFresh.state.result a)).value = 0 ∧
      (mkNode (wFresh.state.result a)).children = [] ∧
      (mkNode (wFresh.state.result a)).child_actions = [] ∧
      n2.visits = wFresh.visits ∧ n2.value = wFresh.value ∧ n2.state = wFresh.state ∧
      (wFresh.child_actions.Nodup → n2.child_actions.Nodup) :=
  expand_first_untried wFresh (by decide)

/-! ### Claim C5: UCB1 child selection and the final move -/

theorem pyMax_eq_none {α β : Type} [LinearOrder β] (f : α → β) (l : List α) :
    pyMax f l = none ↔ l = [] := by
  cases l with
  | nil => simp [pyMax]
  | cons x xs => simp [pyMax]

theorem pyFold_enumFrom {α β : Type} [LinearOrder β] (f : α → β) :
    ∀ (xs : List α) (k : ℕ) (x : ℕ × α),
      (List.foldl (fun b y => if f b.2 < f y.2 then y else b) x (xs.enumFrom k)).2 =
        List.foldl (fun b y => if f b < f y then y else b) x.2 xs := by
  intro xs
  induction xs with
  | nil => intro k x; rfl
  | cons a as ih =>
    intro k x
    simp only [List.enumFrom, List.foldl_cons]
    by_cases hc : f x.2 < f a
    · rw [if_pos hc, if_pos hc]
      exact ih (k + 1) (k, a)
    · rw [if_neg hc, if_neg hc]
      exact ih (k + 1) x

theorem pyMax_enum_snd {α β : Type} [LinearOrder β] (f : α → β) (l : List α) :
    (pyMax (fun pr => f pr.2) l.enum).map Prod.snd = pyMax f l := by
  cases l with
  | nil => rfl
  | cons x xs =>
    show (pyMax (fun pr => f pr.2) ((0, x) :: xs.enumFrom 1)).map Prod.snd = _
    simp only [pyMax, Option.map_some']
    rw [pyFold_enumFrom f xs 1 (0, x)]

/-- A first-argmax index returned by `pyMaxIdx` addresses exactly the
element that `pyMax` returns. -/
theorem pyMaxIdx_spec {α β : Type} [LinearOrder β] (f : α → β) (l : List α) (i : ℕ)
    (h : pyMaxIdx f l = some i) :
    ∃ c, l[i]? = some c ∧ pyMax f l = some c := by
  rw [pyMaxIdx] at h
  rcases hp : pyMax (fun pr => f pr.2) l.enum with _ | pr
  · rw [hp] at h
    exact absurd h (by simp)
  · rw [hp] at h
    simp only [Option.map_some', Option.some.injEq] at h
    obtain ⟨e1, e2, hsplit, -, -⟩ := pyMax_spec _ _ _ hp
    have hg : l.enum[e1.length]? = some pr := by
      rw [hsplit, List.getElem?_append_right (le_refl _)]
      simp
    rw [List.getElem?_enum] at hg
    rcases hl : l[e1.length]? with _ | y
    · rw [hl] at hg
      exact absurd hg (by simp)
    · rw [hl] at hg
      simp only [Option.map_some', Option.some.injEq] at hg
      refine ⟨y, ?_, ?_⟩
      · rw [← h, ← hg]
        exact hl
      · rw [← pyMax_enum_snd, hp, ← hg]
        rfl

theorem pyMaxIdx_congr {α β : Type} [LinearOrder β] (f g : α → β) (l : List α)
    (h : ∀ x ∈ l, f x = g x) : pyMaxIdx f l = pyMaxIdx g l := by
  rw [pyMaxIdx, pyMaxIdx]
  rw [pyMax_congr (fun pr => f pr.2) (fun pr => g pr.2) l.enum ?_]
  intro pr hpr
  refine h pr.2 ?_
  have hm := List.mem_map_of_mem Prod.snd hpr
  rwa [List.enum_map_snd] at hm

/-- Unfolding of `monte_carlo_uct` at a non-terminal root once the loop
result is known. -/
theorem mcUct_nonterminal (rounds : List (List ℕ)) (r0 : ℕ) (t : GTree) (root : MCTree)
    (ht : t.terminal = false) (hl : mctsLoop rounds t.player (mkNode t) = some root) :
    monte_carlo_uct rounds r0 t =
      match pyMaxIdx (fun child => exploit child + 0 * explore root child) root.children with
      | none => none
      | some i => root.child_actions[i]? := by
  rw [monte_carlo_uct, if_neg (by simp [ht]), hl]

/-- C5: `best_child(n, factor)` returns the first child (in child-list
order) maximizing `exploit(child) + factor * explore(child)`; the final
move of `monte_carlo_uct` is the action at the index of the root child
selected with factor 0, that is, purely by highest average observed value
(`exploit` alone). -/
theorem best_child_first_argmax_and_final_move :
    (∀ (n : MCTree) (factor : ℝ), n.children ≠ [] →
      ∃ c l1 l2, best_child n factor = some c ∧
        n.children = l1 ++ c :: l2 ∧
        (∀ y ∈ l1, exploit y + factor * explore n y < exploit c + factor * explore n c) ∧
        (∀ y ∈ n.children,
          exploit y + factor * explore n y ≤ exploit c + factor * explore n c)) ∧
    (∀ root : MCTree,
      ((pyMaxIdx (fun child => exploit child + 0 * explore root child) root.children).bind
        fun i => root.children[i]?) = best_child root 0) ∧
    (∀ (rounds : List (List ℕ)) (r0 : ℕ) (t : GTree) (root : MCTree),
      t.terminal = false → mctsLoop rounds t.player (mkNode t) = some root →
      monte_carlo_uct rounds r0 t =
        (pyMaxIdx (fun child => exploit child) root.children).bind
          fun i => root.child_actions[i]?) := by
  refine ⟨?_, ?_, ?_⟩
  · intro n factor hne
    obtain ⟨c, hc⟩ :=
      pyMax_isSome (fun child => exploit child + factor * explore n child) n.children hne
    obtain ⟨l1, l2, hsplit, hstrict, hle⟩ := pyMax_spec _ _ _ hc
    refine ⟨c, l1, l2, hc, hsplit, hstrict, ?_⟩
    intro y hy
    rw [hsplit] at hy
    rcases List.mem_append.mp hy with hy | hy
    · exact (hstrict y hy).le
    · rcases List.mem_cons.mp hy with hy | hy
      · rw [hy]
      · exact hle y hy
  · intro root
    rcases hpi : pyMaxIdx (fun child => exploit child + 0 * explore root child)
        root.children with _ | i
    · have hnil : root.children = [] := by
        rw [pyMaxIdx] at hpi
        rcases hpm : pyMax (fun pr => exploit pr.2 + 0 * explore root pr.2)
            root.children.enum with _ | pr
        · have henum := (pyMax_eq_none _ _).mp hpm
          simpa using henum
        · rw [hpm] at hpi
          simp at hpi
      simp [best_child, hnil, pyMax]
    · obtain ⟨c, hgc, hpm⟩ := pyMaxIdx_spec _ _ _ hpi
      show root.children[i]? = best_child root 0
      rw [best_child]
      exact hgc.trans hpm.symm
  · intro rounds r0 t root ht hloop
    rw [mcUct_nonterminal rounds r0 t root ht hloop]
    have hcongr : pyMaxIdx (fun child => exploit child + 0 * explore root child)
        root.children = pyMaxIdx (fun child => exploit child) root.children :=
      pyMaxIdx_congr _ _ _ fun x _ => by rw [zero_mul, add_zero]
    rw [hcongr]
    rcases hpi : pyMaxIdx (fun child => exploit child) root.children with _ | i
    · rfl
    · rfl

/-- Witness for C5 at a concrete one-child node and a concrete
zero-iteration run from a non-terminal root. -/
theorem best_child_first_argmax_and_final_move_witness :
    (∃ c l1 l2, best_child wRoot 1 = some c ∧
      wRoot.children = l1 ++ c :: l2 ∧
      (∀ y ∈ l1, exploit y + 1 * explore wRoot y < exploit c + 1 * explore wRoot c) ∧
      (∀ y ∈ wRoot.children,
        exploit y + 1 * explore wRoot y ≤ exploit c + 1 * explore wRoot c)) ∧
    monte_carlo_uct [] 0 sRoot =
      (pyMaxIdx (fun child => exploit child) (mkNode sRoot).children).bind
        fun i => (mkNode sRoot).child_actions[i]? :=
  ⟨best_child_first_argmax_and_final_move.1 wRoot 1 (by simp [wRoot, MCTree.children]),
   best_child_first_argmax_and_final_move.2.2 [] 0 sRoot (mkNode sRoot) rfl rfl⟩
